import Mathlib

/-!
Shallow embedding of the thinking-block invariant enforcer
(`src/unnamed/part_003`, the proactive thinking-block validator hook) of the
Principia repository, together with theorems settling the specification's
claims about it.

The hook's companion modules `constants.ts` and `types.ts` are not among the
sources; the constants they export (`THINKING_PART_TYPES`,
`CONTENT_PART_TYPES`, `DEFAULT_THINKING_CONTENT`,
`SYNTHETIC_THINKING_ID_PREFIX`) are modelled from the spec and marked as such.
Everything else is translated directly from `part_003`.
-/

namespace ThinkingValidator

/-! ## String primitives (kernel-friendly models of the JS string operations) -/

/-- Model of JS `String.prototype.toLowerCase` for the ASCII identifiers the
hook works with: lower-case every character. -/
def strToLower (s : String) : String := ⟨s.data.map Char.toLower⟩

/-- Does `l` contain `pat` as a contiguous infix? -/
def containsSub (pat : List Char) : List Char → Bool
  | [] => pat.isPrefixOf ([] : List Char)
  | c :: rest => pat.isPrefixOf (c :: rest) || containsSub pat rest

/-- Model of JS `String.prototype.includes`: substring containment. -/
def strContains (s pat : String) : Bool := containsSub pat.data s.data

/-- Model of JS `String.prototype.endsWith`. -/
def strEndsWith (s pat : String) : Bool := pat.data.isSuffixOf s.data

/-- JS whitespace characters relevant to `trim` on the contents at hand. -/
def isJsSpace (c : Char) : Bool := c == ' ' || c == '\t' || c == '\n' || c == '\r'

/-- Model of JS `str.trim().length > 0`: the string has a non-whitespace
character. -/
def strTrimNonempty (s : String) : Bool :=
  !((s.data.dropWhile isJsSpace).reverse.dropWhile isJsSpace).isEmpty

/-- Model of the JS `a || b` idiom on optional strings: an absent or empty
string falls through to `b`. -/
def jsOr (a b : Option String) : Option String :=
  match a with
  | none => b
  | some s => if s == "" then b else some s

/-! ## Constants

`constants.ts` is not among the sources; these are modelled from the spec. -/

/-- Modelled from the spec: `constants.ts` is missing from the sources. The
thinking-like part types ("thinking/reasoning" per the hook's comments,
"thinking/redacted_thinking" per the error it prevents). -/
def THINKING_PART_TYPES : List String := ["thinking", "redacted_thinking", "reasoning"]

/-- Modelled from the spec: `constants.ts` is missing from the sources. The
membership test `CONTENT_PART_TYPES.includes(type)`: "other/unknown variants
are treated as content by default unless explicitly classified as a
thinking-like variant". -/
def CONTENT_PART_TYPES_includes (t : String) : Bool := !(THINKING_PART_TYPES.contains t)

/-- Modelled from the spec: `constants.ts` is missing from the sources. A
"fixed default placeholder string" used when no prior thinking content exists. -/
def DEFAULT_THINKING_CONTENT : String := "Continuing from previous context."

/-- Modelled from the spec: `constants.ts` is missing from the sources. A
"fixed, recognizable synthetic-identifier prefix" for inserted parts. -/
def SYNTHETIC_THINKING_ID_PREFIX : String := "synthetic-thinking"

/-! ## Data model (from the hook's usage of `MessageWithParts`/`MessagePart`) -/

/-- The `info` record of a message: role, the model identifier carried on user
turns, the session identifier and the message identifier. -/
structure MessageInfo where
  role : String
  modelID : Option String := none
  sessionID : Option String := none
  id : String := ""
  deriving DecidableEq, Repr

/-- One typed content part: a discriminant `type` plus the variant-specific
fields the hook reads or writes. -/
structure MessagePart where
  type : String
  id : Option String := none
  sessionID : Option String := none
  messageID : Option String := none
  thinking : Option String := none
  text : Option String := none
  synthetic : Option Bool := none
  deriving DecidableEq, Repr

/-- A conversation turn: `info` plus an optional ordered part list (`parts`
may be missing/null, as the hook's guards anticipate). -/
structure MessageWithParts where
  info : MessageInfo
  parts : Option (List MessagePart) := none
  deriving DecidableEq, Repr

/-! ## The hook's functions, translated from `part_003` -/

/-- Source function `isExtendedThinkingModel` (part_003 lines 43-59): empty id is not
enforcing; otherwise, case-insensitively, a "thinking" substring or a "-high"
suffix, or one of the thinking-capable family fragments. -/
def isExtendedThinkingModel (modelID : String) : Bool :=
  if modelID == "" then false
  else
    let lower := strToLower modelID
    if strContains lower "thinking" || strEndsWith lower "-high" then true
    else
      strContains lower "claude-sonnet-4" ||
      strContains lower "claude-opus-4" ||
      strContains lower "claude-3"

/-- Source function `hasContentParts` (part_003 lines 64-72): false on missing/empty parts,
else some part has a content type. -/
def hasContentParts (parts : Option (List MessagePart)) : Bool :=
  match parts with
  | none => false
  | some ps =>
    if ps.length == 0 then false
    else ps.any (fun part => CONTENT_PART_TYPES_includes part.type)

/-- Source function `startsWithThinkingBlock` (part_003 lines 77-83): false on missing/empty
parts, else the first part's type is thinking-like. -/
def startsWithThinkingBlock (parts : Option (List MessagePart)) : Bool :=
  match parts with
  | none => false
  | some [] => false
  | some (firstPart :: _) => THINKING_PART_TYPES.contains firstPart.type

/-- The inner part scan of `findPreviousThinkingContent` (part_003 lines
99-107): first thinking-like part whose `thinking || text` is a non-blank
string. -/
def firstThinkingInParts : List MessagePart → Option String
  | [] => none
  | part :: rest =>
    if THINKING_PART_TYPES.contains part.type then
      match jsOr part.thinking part.text with
      | some s => if strTrimNonempty s then some s else firstThinkingInParts rest
      | none => firstThinkingInParts rest
    else firstThinkingInParts rest

/-- The backward message scan of `findPreviousThinkingContent` (part_003
lines 93-108), expressed over the list of messages before the current index,
most recent first. -/
def findPrevAux : List MessageWithParts → String
  | [] => ""
  | msg :: earlier =>
    if msg.info.role != "assistant" then findPrevAux earlier
    else
      match msg.parts with
      | none => findPrevAux earlier
      | some ps =>
        match firstThinkingInParts ps with
        | some s => s
        | none => findPrevAux earlier

/-- Source function `findPreviousThinkingContent` (part_003 lines 88-111): scan messages
`currentIndex - 1` down to `0`. -/
def findPreviousThinkingContent (messages : List MessageWithParts)
    (currentIndex : Nat) : String :=
  findPrevAux ((messages.take currentIndex).reverse)

/-- The synthetic thinking part built by `prependThinkingBlock` (part_003
lines 125-132). -/
def syntheticThinkingPart (message : MessageWithParts)
    (thinkingContent : String) : MessagePart :=
  { type := "thinking"
    id := some SYNTHETIC_THINKING_ID_PREFIX
    sessionID := some (message.info.sessionID.getD "")
    messageID := some message.info.id
    thinking := some thinkingContent
    synthetic := some true }

/-- Source function `prependThinkingBlock` (part_003 lines 116-136): missing parts become the
empty list, then the synthetic part is unshifted to position 0. -/
def prependThinkingBlock (message : MessageWithParts)
    (thinkingContent : String) : MessageWithParts :=
  { message with
    parts := some (syntheticThinkingPart message thinkingContent ::
      message.parts.getD []) }

/-- The model lookup of the driver (part_003 lines 193-200): walk backward to
the most recent user message, read its `modelID`, defaulting to `""`. -/
def activeModelID (messages : List MessageWithParts) : String :=
  match messages.reverse.find? (fun m => m.info.role == "user") with
  | some m => m.info.modelID.getD ""
  | none => ""

/-- The driver's choice of replacement content (part_003 line 221):
`previousThinking || DEFAULT_THINKING_CONTENT` — the empty search result falls
through to the placeholder. -/
def chooseContent (previousThinking : String) : String :=
  if previousThinking == "" then DEFAULT_THINKING_CONTENT else previousThinking

/-- The driver's repair loop (part_003 lines 209-226): `acc` is the already
processed mutated prefix (the in-place array state for indices below the loop
counter); the backward search runs over the full current array at the current
index. -/
def enforceLoop (acc : List MessageWithParts) :
    List MessageWithParts → List MessageWithParts
  | [] => acc
  | msg :: rest =>
    if msg.info.role != "assistant" then enforceLoop (acc ++ [msg]) rest
    else if hasContentParts msg.parts && !startsWithThinkingBlock msg.parts then
      let previousThinking :=
        findPreviousThinkingContent (acc ++ msg :: rest) acc.length
      enforceLoop (acc ++ [prependThinkingBlock msg (chooseContent previousThinking)]) rest
    else enforceLoop (acc ++ [msg]) rest

/-- The whole-conversation driver `enforce` (the hook body of
`createThinkingBlockValidatorHook`, part_003 lines 185-232). -/
def enforce (messages : List MessageWithParts) : List MessageWithParts :=
  if messages.length == 0 then messages
  else if !(isExtendedThinkingModel (activeModelID messages)) then messages
  else enforceLoop [] messages

/-! ## Spec-side characterizations (used only to state claims) -/

/-- The driver's compound violation test for one message (part_003 lines
213-216): an assistant message with content parts that does not start with a
thinking block. -/
def violatingMsg (m : MessageWithParts) : Bool :=
  m.info.role == "assistant" && hasContentParts m.parts &&
    !startsWithThinkingBlock m.parts

/-- Spec-side wording of the capability oracle: case-insensitively, the
identifier contains the token "thinking", or ends with the suffix "-high", or
contains one of the known reasoning-capable family fragments. -/
def isEnforcingModelSpec (s : String) : Bool :=
  let lower := strToLower s
  strContains lower "thinking" || strEndsWith lower "-high" ||
  strContains lower "claude-sonnet-4" || strContains lower "claude-opus-4" ||
  strContains lower "claude-3"

/-- Spec-side extractor: the usable thinking text of one part — present
exactly when the part is thinking-like and its `thinking || text` value is a
non-blank string. -/
def partThinkingSpec (p : MessagePart) : Option String :=
  if THINKING_PART_TYPES.contains p.type then
    match jsOr p.thinking p.text with
    | some s => if strTrimNonempty s then some s else none
    | none => none
  else none

/-- The non-thinking content parts of a (possibly missing) part list, in
order. -/
def nonThinkingParts (parts : Option (List MessagePart)) : List MessagePart :=
  (parts.getD []).filter (fun p => !(THINKING_PART_TYPES.contains p.type))

/-! ## Concrete example conversations (used by witnesses and counterexamples) -/

/-- Example user turn carrying an enforcing model identifier. -/
def exUser : MessageWithParts :=
  { info := { role := "user", modelID := some "claude-opus-4-thinking", id := "u0" } }

/-- Example user turn carrying a non-enforcing model identifier. -/
def exUserGpt : MessageWithParts :=
  { info := { role := "user", modelID := some "gpt-4", id := "u1" } }

/-- Example valid assistant turn: genuine leading thinking text "A". -/
def exA1 : MessageWithParts :=
  { info := { role := "assistant", id := "a1", sessionID := some "s" },
    parts := some [{ type := "thinking", thinking := some "A" },
                   { type := "text", text := some "t0" }] }

/-- Example violating assistant turn whose genuine thinking text "X" sits
behind its text part. -/
def exA2 : MessageWithParts :=
  { info := { role := "assistant", id := "a2", sessionID := some "s" },
    parts := some [{ type := "text", text := some "t1" },
                   { type := "thinking", thinking := some "X" }] }

/-- Example violating assistant turn holding only a tool call. -/
def exA3 : MessageWithParts :=
  { info := { role := "assistant", id := "a3", sessionID := some "s" },
    parts := some [{ type := "tool_use" }] }

/-- Example assistant turn with a missing (null) part list. -/
def exA0 : MessageWithParts :=
  { info := { role := "assistant", id := "a0" } }

/-- Enforcing conversation with two violating assistant turns. -/
def exConv : List MessageWithParts := [exUser, exA1, exA2, exA3]

/-- Non-enforcing conversation with a violating assistant turn. -/
def exConvB : List MessageWithParts := [exUserGpt, exA3]

/-- Enforcing conversation containing a partless assistant turn. -/
def exConvC : List MessageWithParts := [exUser, exA0, exA3]

/-! ## Structural lemmas -/

theorem startsWith_prependThinkingBlock (m : MessageWithParts) (c : String) :
    startsWithThinkingBlock (prependThinkingBlock m c).parts = true := by
  simp [prependThinkingBlock, syntheticThinkingPart, startsWithThinkingBlock,
    THINKING_PART_TYPES]

theorem info_prependThinkingBlock (m : MessageWithParts) (c : String) :
    (prependThinkingBlock m c).info = m.info := rfl

theorem enforceLoop_nil (acc : List MessageWithParts) :
    enforceLoop acc [] = acc := rfl

theorem enforceLoop_cons (acc : List MessageWithParts) (msg : MessageWithParts)
    (rest : List MessageWithParts) :
    enforceLoop acc (msg :: rest) =
      if violatingMsg msg then
        enforceLoop
          (acc ++ [prependThinkingBlock msg (chooseContent (findPrevAux acc.reverse))])
          rest
      else enforceLoop (acc ++ [msg]) rest := by
  have htake : findPreviousThinkingContent (acc ++ msg :: rest) acc.length =
      findPrevAux acc.reverse := by
    unfold findPreviousThinkingContent
    rw [List.take_left]
  cases h1 : msg.info.role == "assistant" with
  | false => simp [enforceLoop, violatingMsg, h1, bne]
  | true =>
    cases h2 : hasContentParts msg.parts && !startsWithThinkingBlock msg.parts with
    | false => simp [enforceLoop, violatingMsg, h1, h2, bne]
    | true => simp [enforceLoop, violatingMsg, h1, h2, bne, htake]

/-- Every step of the loop appends exactly one message: the original one, or
its repaired form when it violates the invariant. -/
theorem enforceLoop_step_shape (acc : List MessageWithParts)
    (msg : MessageWithParts) (rest : List MessageWithParts) :
    ∃ x, enforceLoop acc (msg :: rest) = enforceLoop (acc ++ [x]) rest ∧
      ((violatingMsg msg = false ∧ x = msg) ∨
       (violatingMsg msg = true ∧
        x = prependThinkingBlock msg (chooseContent (findPrevAux acc.reverse)))) := by
  rw [enforceLoop_cons]
  cases hv : violatingMsg msg with
  | false => exact ⟨msg, by simp, Or.inl ⟨rfl, rfl⟩⟩
  | true =>
    exact ⟨prependThinkingBlock msg (chooseContent (findPrevAux acc.reverse)),
      by simp, Or.inr ⟨rfl, rfl⟩⟩

theorem enforceLoop_length (l : List MessageWithParts) :
    ∀ acc : List MessageWithParts,
      (enforceLoop acc l).length = acc.length + l.length := by
  induction l with
  | nil => intro acc; simp [enforceLoop_nil]
  | cons msg rest ih =>
    intro acc
    rcases enforceLoop_step_shape acc msg rest with ⟨x, hx, -⟩
    rw [hx, ih]
    simp
    omega

theorem enforceLoop_take (l : List MessageWithParts) :
    ∀ (acc : List MessageWithParts) (j : Nat), j ≤ acc.length →
      (enforceLoop acc l).take j = acc.take j := by
  induction l with
  | nil => intro acc j _; rfl
  | cons msg rest ih =>
    intro acc j hj
    rcases enforceLoop_step_shape acc msg rest with ⟨x, hx, -⟩
    rw [hx, ih (acc ++ [x]) j (by simp; omega),
      List.take_append_of_le_length hj]

theorem enforceLoop_getElem_lt (l : List MessageWithParts) :
    ∀ (acc : List MessageWithParts) (j : Nat), j < acc.length →
      (enforceLoop acc l)[j]? = acc[j]? := by
  induction l with
  | nil => intro acc j _; rfl
  | cons msg rest ih =>
    intro acc j hj
    rcases enforceLoop_step_shape acc msg rest with ⟨x, hx, -⟩
    rw [hx, ih (acc ++ [x]) j (by simp; omega),
      List.getElem?_append, if_pos hj]

theorem enforceLoop_map_info (l : List MessageWithParts) :
    ∀ acc : List MessageWithParts,
      (enforceLoop acc l).map (fun m => m.info) =
        acc.map (fun m => m.info) ++ l.map (fun m => m.info) := by
  induction l with
  | nil => intro acc; simp [enforceLoop_nil]
  | cons msg rest ih =>
    intro acc
    rcases enforceLoop_step_shape acc msg rest with ⟨x, hx, hshape⟩
    have hinfo : x.info = msg.info := by
      rcases hshape with ⟨-, rfl⟩ | ⟨-, rfl⟩
      · rfl
      · rfl
    rw [hx, ih]
    simp [hinfo]

theorem activeModelID_eq_infos (l : List MessageWithParts) :
    activeModelID l =
      (match (l.map (fun m => m.info)).reverse.find? (fun i => i.role == "user") with
       | some i => i.modelID.getD ""
       | none => "") := by
  unfold activeModelID
  have hpred : ((fun i : MessageInfo => i.role == "user") ∘
      fun m : MessageWithParts => m.info) =
      (fun m : MessageWithParts => m.info.role == "user") := rfl
  rw [← List.map_reverse, List.find?_map, hpred]
  cases l.reverse.find? (fun m => m.info.role == "user") <;> rfl

/-- Message-level soundness: an assistant message with content parts starts
with a thinking block. -/
def okMsg (m : MessageWithParts) : Prop :=
  m.info.role = "assistant" → hasContentParts m.parts = true →
    startsWithThinkingBlock m.parts = true

theorem okMsg_of_not_violating {m : MessageWithParts}
    (h : violatingMsg m = false) : okMsg m := by
  intro hrole hcontent
  simp [violatingMsg, hrole, hcontent] at h
  exact h

theorem not_violating_of_okMsg {m : MessageWithParts} (h : okMsg m) :
    violatingMsg m = false := by
  unfold violatingMsg
  cases hrole : m.info.role == "assistant" with
  | false => simp
  | true =>
    cases hc : hasContentParts m.parts with
    | false => simp
    | true =>
      have := h (by simpa using hrole) hc
      simp [this]

theorem enforceLoop_ok (l : List MessageWithParts) :
    ∀ acc : List MessageWithParts, (∀ m ∈ acc, okMsg m) →
      ∀ m ∈ enforceLoop acc l, okMsg m := by
  induction l with
  | nil => intro acc hacc; simpa [enforceLoop_nil] using hacc
  | cons msg rest ih =>
    intro acc hacc m hm
    rcases enforceLoop_step_shape acc msg rest with ⟨x, hx, hshape⟩
    rw [hx] at hm
    refine ih (acc ++ [x]) ?_ m hm
    intro y hy
    rcases List.mem_append.mp hy with hy | hy
    · exact hacc y hy
    · simp only [List.mem_singleton] at hy
      subst hy
      rcases hshape with ⟨hv, rfl⟩ | ⟨-, rfl⟩
      · exact okMsg_of_not_violating hv
      · intro _ _; exact startsWith_prependThinkingBlock ..

theorem enforceLoop_id (l : List MessageWithParts) :
    ∀ acc : List MessageWithParts, (∀ m ∈ l, violatingMsg m = false) →
      enforceLoop acc l = acc ++ l := by
  induction l with
  | nil => intro acc _; simp [enforceLoop_nil]
  | cons msg rest ih =>
    intro acc h
    have hv : violatingMsg msg = false := h msg (by simp)
    rw [enforceLoop_cons, hv]
    simp only [Bool.false_eq_true, if_false]
    rw [ih (acc ++ [msg]) (fun m hm => h m (by simp [hm]))]
    simp

theorem enforceLoop_getElem (l : List MessageWithParts) :
    ∀ (acc : List MessageWithParts) (i : Nat) (m : MessageWithParts),
      l[i]? = some m →
      (enforceLoop acc l)[acc.length + i]? = some m ∨
      ∃ c, (enforceLoop acc l)[acc.length + i]? =
        some (prependThinkingBlock m c) := by
  induction l with
  | nil => intro acc i m h; simp at h
  | cons msg rest ih =>
    intro acc i m h
    rcases enforceLoop_step_shape acc msg rest with ⟨x, hx, hshape⟩
    cases i with
    | zero =>
      simp only [List.getElem?_cons_zero, Option.some.injEq] at h
      subst h
      rw [hx]
      have hget : (enforceLoop (acc ++ [x]) rest)[acc.length + 0]? = some x := by
        rw [Nat.add_zero,
          enforceLoop_getElem_lt rest (acc ++ [x]) acc.length (by simp),
          List.getElem?_concat_length]
      rcases hshape with ⟨-, rfl⟩ | ⟨-, rfl⟩
      · exact Or.inl hget
      · exact Or.inr ⟨_, hget⟩
    | succ n =>
      rw [hx]
      have h' : rest[n]? = some m := by simpa using h
      have hres := ih (acc ++ [x]) n m h'
      have hlen : (acc ++ [x]).length + n = acc.length + (n + 1) := by
        simp
        omega
      rw [hlen] at hres
      exact hres

theorem enforceLoop_getElem_not_violating (l : List MessageWithParts) :
    ∀ (acc : List MessageWithParts) (i : Nat) (m : MessageWithParts),
      l[i]? = some m → violatingMsg m = false →
      (enforceLoop acc l)[acc.length + i]? = some m := by
  induction l with
  | nil => intro acc i m h _; simp at h
  | cons msg rest ih =>
    intro acc i m h hv
    rcases enforceLoop_step_shape acc msg rest with ⟨x, hx, hshape⟩
    cases i with
    | zero =>
      simp only [List.getElem?_cons_zero, Option.some.injEq] at h
      subst h
      rw [hx]
      have hget : (enforceLoop (acc ++ [x]) rest)[acc.length + 0]? = some x := by
        rw [Nat.add_zero,
          enforceLoop_getElem_lt rest (acc ++ [x]) acc.length (by simp),
          List.getElem?_concat_length]
      rcases hshape with ⟨-, rfl⟩ | ⟨hv', rfl⟩
      · exact hget
      · rw [hv] at hv'
        exact absurd hv' (by simp)
    | succ n =>
      rw [hx]
      have h' : rest[n]? = some m := by simpa using h
      have hres := ih (acc ++ [x]) n m h' hv
      have hlen : (acc ++ [x]).length + n = acc.length + (n + 1) := by
        simp
        omega
      rw [hlen] at hres
      exact hres

theorem enforceLoop_getElem_violating (l : List MessageWithParts) :
    ∀ (acc : List MessageWithParts) (i : Nat) (m : MessageWithParts),
      l[i]? = some m → violatingMsg m = true →
      (enforceLoop acc l)[acc.length + i]? =
        some (prependThinkingBlock m (chooseContent
          (findPreviousThinkingContent (enforceLoop acc l) (acc.length + i)))) := by
  induction l with
  | nil => intro acc i m h _; simp at h
  | cons msg rest ih =>
    intro acc i m h hv
    cases i with
    | zero =>
      simp only [List.getElem?_cons_zero, Option.some.injEq] at h
      subst h
      rw [enforceLoop_cons, if_pos hv]
      have htake :
          (enforceLoop
            (acc ++ [prependThinkingBlock msg (chooseContent (findPrevAux acc.reverse))])
            rest).take acc.length = acc := by
        have h2 := enforceLoop_take rest
          (acc ++ [prependThinkingBlock msg (chooseContent (findPrevAux acc.reverse))])
          acc.length (by simp)
        rw [List.take_append_of_le_length (Nat.le_refl _), List.take_length] at h2
        exact h2
      have hget :
          (enforceLoop
            (acc ++ [prependThinkingBlock msg (chooseContent (findPrevAux acc.reverse))])
            rest)[acc.length + 0]? =
          some (prependThinkingBlock msg (chooseContent (findPrevAux acc.reverse))) := by
        rw [Nat.add_zero,
          enforceLoop_getElem_lt rest _ acc.length (by simp),
          List.getElem?_concat_length]
      rw [hget]
      unfold findPreviousThinkingContent
      rw [Nat.add_zero, htake]
    | succ n =>
      rcases enforceLoop_step_shape acc msg rest with ⟨x, hx, -⟩
      rw [hx]
      have h' : rest[n]? = some m := by simpa using h
      have hres := ih (acc ++ [x]) n m h' hv
      have hlen : (acc ++ [x]).length + n = acc.length + (n + 1) := by
        simp
        omega
      rw [hlen] at hres
      exact hres

theorem firstThinkingInParts_cons (p : MessagePart) (rest : List MessagePart) :
    firstThinkingInParts (p :: rest) =
      match partThinkingSpec p with
      | some s => some s
      | none => firstThinkingInParts rest := by
  simp only [firstThinkingInParts, partThinkingSpec]
  cases hc : THINKING_PART_TYPES.contains p.type with
  | false => simp [hc]
  | true =>
    cases hj : jsOr p.thinking p.text with
    | none => simp [hc, hj]
    | some s => cases ht : strTrimNonempty s <;> simp [hc, hj, ht]

theorem firstThinkingInParts_eq_findSome (ps : List MessagePart) :
    firstThinkingInParts ps = ps.findSome? partThinkingSpec := by
  induction ps with
  | nil => rfl
  | cons p rest ih =>
    rw [List.findSome?_cons, firstThinkingInParts_cons]
    cases partThinkingSpec p <;> simp [ih]

theorem findPrevAux_eq (l : List MessageWithParts) :
    findPrevAux l =
      ((l.filter (fun m => m.info.role == "assistant")).findSome?
        (fun m => (m.parts.getD []).findSome? partThinkingSpec)).getD "" := by
  induction l with
  | nil => rfl
  | cons msg rest ih =>
    unfold findPrevAux
    cases hrole : msg.info.role == "assistant" with
    | false => simp [List.filter_cons, hrole, bne, ih]
    | true =>
      simp only [List.filter_cons, hrole, if_true, List.findSome?_cons, bne,
        Bool.not_true, Bool.false_eq_true, if_false]
      cases hp : msg.parts with
      | none => simp [ih]
      | some ps =>
        simp only [Option.getD_some]
        rw [firstThinkingInParts_eq_findSome] at *
        cases hf : ps.findSome? partThinkingSpec <;> simp [hf, ih]

/-- Under an enforcing model the driver is the repair loop. -/
theorem enforce_eq_loop {messages : List MessageWithParts}
    (h : isExtendedThinkingModel (activeModelID messages) = true) :
    enforce messages = enforceLoop [] messages := by
  unfold enforce
  cases hlen : messages.length == 0 with
  | true =>
    have : messages = [] := List.length_eq_zero.mp (by simpa using hlen)
    subst this
    rfl
  | false => simp [h]

theorem enforce_length (messages : List MessageWithParts) :
    (enforce messages).length = messages.length := by
  unfold enforce
  split
  · rfl
  · split
    · rfl
    · rw [enforceLoop_length]
      simp

/-- Pointwise shape of the driver's output: each message is either unchanged
or repaired by one prepend. -/
theorem enforce_getElem (messages : List MessageWithParts) (i : Nat)
    (m : MessageWithParts) (h : messages[i]? = some m) :
    (enforce messages)[i]? = some m ∨
    ∃ c, (enforce messages)[i]? = some (prependThinkingBlock m c) := by
  unfold enforce
  split
  · exact Or.inl h
  · split
    · exact Or.inl h
    · have := enforceLoop_getElem messages [] i m h
      simpa using this

theorem enforce_getElem_not_violating (messages : List MessageWithParts)
    (i : Nat) (m : MessageWithParts) (h : messages[i]? = some m)
    (hv : violatingMsg m = false) :
    (enforce messages)[i]? = some m := by
  unfold enforce
  split
  · exact h
  · split
    · exact h
    · have := enforceLoop_getElem_not_violating messages [] i m h hv
      simpa using this

theorem enforce_map_info (messages : List MessageWithParts) :
    (enforce messages).map (fun m => m.info) =
      messages.map (fun m => m.info) := by
  unfold enforce
  split
  · rfl
  · split
    · rfl
    · have := enforceLoop_map_info messages []
      simpa using this

theorem enforce_ok (messages : List MessageWithParts)
    (h : isExtendedThinkingModel (activeModelID messages) = true) :
    ∀ m ∈ enforce messages, okMsg m := by
  rw [enforce_eq_loop h]
  exact enforceLoop_ok messages [] (by simp)

theorem nonThinkingParts_prepend (m : MessageWithParts) (c : String) :
    nonThinkingParts (prependThinkingBlock m c).parts =
      nonThinkingParts m.parts := by
  cases hp : m.parts <;>
    simp [nonThinkingParts, prependThinkingBlock, syntheticThinkingPart, hp,
      THINKING_PART_TYPES, List.filter_cons]

/-! ## Claims -/

/-- Claim C1: under an enforcing active model (read from the most recent user
message), after running `enforce`, every assistant message with content parts
has a thinking-like first part — the single pass repairs every violating
message. -/
theorem C1_invariant_establishment (messages : List MessageWithParts)
    (henf : isExtendedThinkingModel (activeModelID messages) = true) :
    ∀ m ∈ enforce messages, m.info.role = "assistant" →
      hasContentParts m.parts = true →
      startsWithThinkingBlock m.parts = true :=
  fun m hm => enforce_ok messages henf m hm

/-- Witness for C1 on a conversation with two violating assistant turns. -/
theorem C1_invariant_establishment_witness :
    startsWithThinkingBlock (prependThinkingBlock exA3 "A").parts = true :=
  C1_invariant_establishment exConv (by decide)
    (prependThinkingBlock exA3 "A") (by decide) (by decide) (by decide)

/-- Claim C2: the whole-conversation driver is idempotent — a second pass
over an already-repaired conversation changes nothing. -/
theorem C2_idempotent (messages : List MessageWithParts) :
    enforce (enforce messages) = enforce messages := by
  cases henf : isExtendedThinkingModel (activeModelID messages) with
  | false =>
    have h1 : enforce messages = messages := by
      unfold enforce
      split
      · rfl
      · simp [henf]
    rw [h1]
    exact h1
  | true =>
    have hmodel : activeModelID (enforce messages) = activeModelID messages := by
      rw [activeModelID_eq_infos, activeModelID_eq_infos, enforce_map_info]
    have henf2 :
        isExtendedThinkingModel (activeModelID (enforce messages)) = true := by
      rw [hmodel]
      exact henf
    rw [enforce_eq_loop henf2]
    have hok := enforce_ok messages henf
    have hnv : ∀ m ∈ enforce messages, violatingMsg m = false :=
      fun m hm => not_violating_of_okMsg (hok m hm)
    rw [enforceLoop_id (enforce messages) [] hnv]
    simp

/-- Claim C3: `hasContentParts` holds iff some part of the sequence is not
thinking-like; in particular a part of unknown type counts as content. -/
theorem C3_hasContent_iff :
    (∀ parts : Option (List MessagePart),
      (hasContentParts parts = true ↔
        ∃ p ∈ parts.getD [], THINKING_PART_TYPES.contains p.type = false)) ∧
    ∀ p : MessagePart, THINKING_PART_TYPES.contains p.type = false →
      hasContentParts (some [p]) = true := by
  constructor
  · intro parts
    cases parts with
    | none => simp [hasContentParts]
    | some ps =>
      cases ps with
      | nil => simp [hasContentParts]
      | cons q qs =>
        simp [hasContentParts, CONTENT_PART_TYPES_includes, List.any_eq_true]
  · intro p hp
    have hp' : p.type ∉ THINKING_PART_TYPES := by simpa using hp
    simp [hasContentParts, CONTENT_PART_TYPES_includes, hp']

/-- Witness for C3: an unknown part type is classified as content. -/
theorem C3_hasContent_iff_witness :
    hasContentParts (some [{ type := "banana" }]) = true :=
  C3_hasContent_iff.2 { type := "banana" } (by decide)

/-- Claim C4: the capability oracle rejects the empty identifier and accepts
exactly the identifiers matching the case-insensitive "thinking" token,
"-high" suffix, or known reasoning-capable family fragments. -/
theorem C4_capability_oracle :
    isExtendedThinkingModel "" = false ∧
    ∀ s : String,
      isExtendedThinkingModel s = true ↔ isEnforcingModelSpec s = true := by
  refine ⟨by decide, ?_⟩
  intro s
  by_cases hs : s = ""
  · subst hs
    decide
  · have hbe : (s == "") = false := by simp [hs]
    cases hA : strContains (strToLower s) "thinking" <;>
      cases hB : strEndsWith (strToLower s) "-high" <;>
        simp [isExtendedThinkingModel, isEnforcingModelSpec, hbe, hA, hB]

/-- Claim C5: the backward search inspects only strictly earlier messages,
skips non-assistant turns, returns the first non-blank thinking text of the
most recent prior assistant message owning one, and falls back to `""`. -/
theorem C5_backward_search (messages : List MessageWithParts) (i : Nat) :
    findPreviousThinkingContent messages i =
      (((messages.take i).reverse.filter
          (fun m => m.info.role == "assistant")).findSome?
        (fun m => (m.parts.getD []).findSome? partThinkingSpec)).getD "" := by
  unfold findPreviousThinkingContent
  exact findPrevAux_eq _

/-- Counterexample for claim C6 as stated: in `exConv`, the most recent
assistant message before the violating index 3 that owns a non-empty
thinking-like part is `exA2`, whose thinking text is `"X"`; the driver
nevertheless inserts `"A"` into message 3, because its backward search runs
over the conversation as already mutated by the same pass (message 2's
synthetic part, carrying `"A"`, now precedes `"X"`). -/
theorem C6_counterexample :
    ((((exConv.take 3).reverse.filter
        (fun m => m.info.role == "assistant")).findSome?
      (fun m => (m.parts.getD []).findSome? partThinkingSpec)) = some "X") ∧
    violatingMsg exA3 = true ∧
    isExtendedThinkingModel (activeModelID exConv) = true ∧
    (((enforce exConv)[3]?.bind (fun m => m.parts)).bind List.head?).bind
      (fun p => p.thinking) = some "A" ∧
    ("A" : String) ≠ "X" := by
  refine ⟨by decide, by decide, by decide, by decide, by decide⟩

/-- Claim C6 as amended: the inserted part carries the content selected by
the backward search over the conversation state at the moment the message is
repaired — i.e. including repairs already made earlier in the same pass — and
the default placeholder exactly when that search finds nothing. -/
theorem C6_amended_reuse (messages : List MessageWithParts) (i : Nat)
    (m : MessageWithParts) (hg : messages[i]? = some m)
    (hv : violatingMsg m = true)
    (henf : isExtendedThinkingModel (activeModelID messages) = true) :
    (enforce messages)[i]? =
      some (prependThinkingBlock m (chooseContent
        (findPreviousThinkingContent (enforce messages) i))) := by
  rw [enforce_eq_loop henf]
  have h := enforceLoop_getElem_violating messages [] i m hg hv
  simpa using h

/-- Witness for the amended C6 at the violating index 2 of `exConv`. -/
theorem C6_amended_reuse_witness :
    (enforce exConv)[2]? =
      some (prependThinkingBlock exA2 (chooseContent
        (findPreviousThinkingContent (enforce exConv) 2))) :=
  C6_amended_reuse exConv 2 exA2 (by decide) (by decide) (by decide)

/-- Claim C7: each repair builds the synthetic part with the supplied
content, the fixed synthetic-identifier prefix, the owning message's session
and message identifiers and `synthetic = true`, prepends it at position 0,
and the driver preserves the message count, every message's `info`, and the
ordered sequence of non-thinking parts of every message. -/
theorem C7_frame :
    (∀ (message : MessageWithParts) (c : String),
      (prependThinkingBlock message c).info = message.info ∧
      (prependThinkingBlock message c).parts =
        some (syntheticThinkingPart message c :: message.parts.getD []) ∧
      (syntheticThinkingPart message c).type = "thinking" ∧
      (syntheticThinkingPart message c).id = some SYNTHETIC_THINKING_ID_PREFIX ∧
      (syntheticThinkingPart message c).sessionID =
        some (message.info.sessionID.getD "") ∧
      (syntheticThinkingPart message c).messageID = some message.info.id ∧
      (syntheticThinkingPart message c).thinking = some c ∧
      (syntheticThinkingPart message c).synthetic = some true) ∧
    (∀ messages : List MessageWithParts,
      (enforce messages).length = messages.length) ∧
    ∀ (messages : List MessageWithParts) (i : Nat) (m m' : MessageWithParts),
      messages[i]? = some m → (enforce messages)[i]? = some m' →
      m'.info = m.info ∧
      nonThinkingParts m'.parts = nonThinkingParts m.parts ∧
      (m' = m ∨ ∃ c, m' = prependThinkingBlock m c) := by
  refine ⟨fun message c => ⟨rfl, rfl, rfl, rfl, rfl, rfl, rfl, rfl⟩,
    enforce_length, ?_⟩
  intro messages i m m' hg hg'
  rcases enforce_getElem messages i m hg with h | ⟨c, h⟩
  · rw [h] at hg'
    injection hg' with h2
    subst h2
    exact ⟨rfl, rfl, Or.inl rfl⟩
  · rw [h] at hg'
    injection hg' with h2
    subst h2
    exact ⟨rfl, nonThinkingParts_prepend m c, Or.inr ⟨c, rfl⟩⟩

/-- Witness for C7's frame component at index 3 of `exConv`. -/
theorem C7_frame_witness :
    (prependThinkingBlock exA3 "A").info = exA3.info ∧
    nonThinkingParts (prependThinkingBlock exA3 "A").parts =
      nonThinkingParts exA3.parts ∧
    (prependThinkingBlock exA3 "A" = exA3 ∨
      ∃ c, prependThinkingBlock exA3 "A" = prependThinkingBlock exA3 c) :=
  C7_frame.2.2 exConv 3 exA3 (prependThinkingBlock exA3 "A")
    (by decide) (by decide)

/-- Claim C8: a non-enforcing model identifier — or the absence of any user
message — makes the driver a silent no-op. -/
theorem C8_noop (messages : List MessageWithParts)
    (h : isExtendedThinkingModel (activeModelID messages) = false ∨
      ∀ m ∈ messages, ¬ m.info.role = "user") :
    enforce messages = messages := by
  have henf : isExtendedThinkingModel (activeModelID messages) = false := by
    rcases h with h | h
    · exact h
    · have hfind :
          messages.reverse.find? (fun m => m.info.role == "user") = none := by
        rw [List.find?_eq_none]
        intro x hx
        simp [h x (List.mem_reverse.mp hx)]
      have hmid : activeModelID messages = "" := by
        unfold activeModelID
        rw [hfind]
      rw [hmid]
      decide
  unfold enforce
  split
  · rfl
  · simp [henf]

/-- Witness for C8 on a conversation whose latest user turn names a
non-matching model. -/
theorem C8_noop_witness : enforce exConvB = exConvB :=
  C8_noop exConvB (Or.inl (by decide))

/-- Claim C10: a missing/null part list yields `hasContentParts = false` and
`startsWithThinkingBlock = false`, so such a message is never a violation and
passes through `enforce` unchanged. -/
theorem C10_missing_parts :
    hasContentParts none = false ∧
    startsWithThinkingBlock none = false ∧
    ∀ (messages : List MessageWithParts) (i : Nat) (m : MessageWithParts),
      messages[i]? = some m → m.parts = none →
      (enforce messages)[i]? = some m := by
  refine ⟨rfl, rfl, ?_⟩
  intro messages i m hg hp
  apply enforce_getElem_not_violating messages i m hg
  simp [violatingMsg, hasContentParts, hp]

/-- Witness for C10 on an enforcing conversation holding a partless
assistant turn. -/
theorem C10_missing_parts_witness : (enforce exConvC)[1]? = some exA0 :=
  C10_missing_parts.2.2 exConvC 1 exA0 (by decide) (by decide)

end ThinkingValidator
